import Mathlib

/-!
Verification of the `osi/include/config.h` INI configuration-store contract.

The repository ships only the declarations header `osi/include/config.h`;
the implementation file is not part of the sources.  The definitions below
are therefore a shallow embedding modelled from the specification's data
model and operation contracts (and from the documented constants of the
header, such as `CONFIG_DEFAULT_SECTION`).  File I/O is omitted: `config_new`
is modelled by its in-memory parsing core `config_parse`, and `config_save`
by its in-memory serialization core `config_serialize`.
-/

set_option maxRecDepth 4000

/-- A single key/value entry of a section ("Entry" of the spec's data model). -/
structure entry_t where
  key : String
  value : String
deriving DecidableEq, Repr

/-- A named section: a name and an ordered sequence of entries. -/
structure section_t where
  name : String
  entries : List entry_t
deriving DecidableEq, Repr

/-- A configuration store: an ordered sequence of sections. -/
structure config_t where
  sections : List section_t
deriving DecidableEq, Repr

/-- The default section name, from `osi/include/config.h`:
`#define CONFIG_DEFAULT_SECTION "Global"`. -/
def CONFIG_DEFAULT_SECTION : String := "Global"

/-- Modelled from the spec: `config_new_empty` returns a store with zero
sections (the implementation is not in the sources). -/
def config_new_empty : config_t := ⟨[]⟩

/-- Modelled from the spec: locate the first entry with the given key in a
section's entry list. -/
def entry_find : List entry_t → String → Option entry_t
  | [], _ => none
  | e :: rest, key => if e.key = key then some e else entry_find rest key

/-- Modelled from the spec: locate the first section with the given name. -/
def section_find : List section_t → String → Option section_t
  | [], _ => none
  | s :: rest, name => if s.name = name then some s else section_find rest name

/-- Modelled from the spec: the stored string value of `key` under `section`,
if both exist.  Shared plumbing of the typed getters. -/
def config_lookup (c : config_t) (sec key : String) : Option String :=
  match section_find c.sections sec with
  | none => none
  | some s =>
    match entry_find s.entries key with
    | none => none
    | some e => some e.value

/-- Helper for `config_has_section`: true iff some section with the given
name exists and has at least one entry. -/
def has_section_list : List section_t → String → Bool
  | [], _ => false
  | s :: rest, sec =>
    if s.name = sec ∧ s.entries ≠ [] then true else has_section_list rest sec

/-- Modelled from the spec: `config_has_section` is true iff a section named
`sec` exists and has at least one key/value pair (empty sections are treated
as if they do not exist). -/
def config_has_section (c : config_t) (sec : String) : Bool :=
  has_section_list c.sections sec

/-- Modelled from the spec: `config_has_key` is true iff `sec` exists and
contains `key`. -/
def config_has_key (c : config_t) (sec key : String) : Bool :=
  (config_lookup c sec key).isSome

/-- Modelled from the spec: `config_get_string` returns the stored value, or
`def_value` when section or key is absent. -/
def config_get_string (c : config_t) (sec key def_value : String) : String :=
  match config_lookup c sec key with
  | none => def_value
  | some v => v

/-- Modelled from the spec: the two fixed boolean literal tokens are
`"true"` and `"false"`; any other stored string fails boolean conversion. -/
def config_get_bool (c : config_t) (sec key : String) (def_value : Bool) : Bool :=
  match config_lookup c sec key with
  | none => def_value
  | some v => if v = "true" then true else if v = "false" then false else def_value

/-- Modelled from the spec: decimal digit accumulation; fails on the first
non-digit character (no partial-parse acceptance). -/
def parse_nat_digits : List Char → Nat → Option Nat
  | [], acc => some acc
  | c :: cs, acc =>
    if c.isDigit then parse_nat_digits cs (10 * acc + (c.toNat - 48)) else none

/-- Modelled from the spec: full-string conversion of a stored value to an
integer; an empty string, a bare sign, or any trailing garbage is a failure. -/
def parse_int_full (s : String) : Option Int :=
  match s.data with
  | [] => none
  | '-' :: cs =>
    match cs with
    | [] => none
    | _ :: _ => (parse_nat_digits cs 0).map (fun n => -(n : Int))
  | '+' :: cs =>
    match cs with
    | [] => none
    | _ :: _ => (parse_nat_digits cs 0).map (fun n => (n : Int))
  | cs => (parse_nat_digits cs 0).map (fun n => (n : Int))

/-- Modelled from the spec: `config_get_int` returns the fully converted
integral value, or `def_value` on absence or conversion failure. -/
def config_get_int (c : config_t) (sec key : String) (def_value : Int) : Int :=
  match config_lookup c sec key with
  | none => def_value
  | some v =>
    match parse_int_full v with
    | none => def_value
    | some n => n

/-- Modelled from the spec: overwrite the value of `key` in place if present
(order unchanged on overwrite), otherwise append a fresh entry at the end. -/
def entries_set : List entry_t → String → String → List entry_t
  | [], key, value => [⟨key, value⟩]
  | e :: rest, key, value =>
    if e.key = key then ⟨key, value⟩ :: rest else e :: entries_set rest key value

/-- Modelled from the spec: update the first section named `sec` in place,
otherwise append a fresh section holding the single new entry. -/
def sections_set : List section_t → String → String → String → List section_t
  | [], sec, key, value => [⟨sec, [⟨key, value⟩]⟩]
  | s :: rest, sec, key, value =>
    if s.name = sec then ⟨s.name, entries_set s.entries key value⟩ :: rest
    else s :: sections_set rest sec key value

/-- Modelled from the spec: `config_set_string` creates the section and/or
key if absent (appending, preserving insertion order), otherwise overwrites
the existing value in place. -/
def config_set_string (c : config_t) (sec key value : String) : config_t :=
  ⟨sections_set c.sections sec key value⟩

/-- Modelled from the spec: `config_set_bool` stores one of the two fixed
boolean literal tokens. -/
def config_set_bool (c : config_t) (sec key : String) (value : Bool) : config_t :=
  config_set_string c sec key (if value then "true" else "false")

/-- Modelled from the spec: remove the first entry with the given key. -/
def entries_remove : List entry_t → String → List entry_t
  | [], _ => []
  | e :: rest, key => if e.key = key then rest else e :: entries_remove rest key

/-- Modelled from the spec: remove `key` from the first section named `sec`,
leaving the (possibly now empty) section in the container. -/
def sections_remove_key : List section_t → String → String → List section_t
  | [], _, _ => []
  | s :: rest, sec, key =>
    if s.name = sec then ⟨s.name, entries_remove s.entries key⟩ :: rest
    else s :: sections_remove_key rest sec key

/-- Modelled from the spec: `config_remove_key` removes one entry and reports
whether the section and key were found; an emptied section is left in the
container (the spec allows either pruning choice provided existence queries
report it absent). -/
def config_remove_key (c : config_t) (sec key : String) : Bool × config_t :=
  match section_find c.sections sec with
  | none => (false, c)
  | some s =>
    match entry_find s.entries key with
    | none => (false, c)
    | some _ => (true, ⟨sections_remove_key c.sections sec key⟩)

/-- Modelled from the spec: deep copy of an entry list. -/
def clone_entries : List entry_t → List entry_t
  | [] => []
  | e :: rest => ⟨e.key, e.value⟩ :: clone_entries rest

/-- Modelled from the spec: deep copy of a section list, preserving order. -/
def clone_sections : List section_t → List section_t
  | [] => []
  | s :: rest => ⟨s.name, clone_entries s.entries⟩ :: clone_sections rest

/-- Modelled from the spec: `config_new_clone` returns an independent deep
copy of every section, key and value of `src`. -/
def config_new_clone (src : config_t) : config_t := ⟨clone_sections src.sections⟩

/-- Modelled from the spec: a section-iterator handle is the suffix of the
section sequence that remains to visit; `config_section_begin` is the whole
sequence. -/
def config_section_begin (c : config_t) : List section_t := c.sections

/-- Modelled from the spec: the `config_section_end` sentinel, one past the
last section. -/
def config_section_end (_ : config_t) : List section_t := []

/-- Modelled from the spec: `config_section_next` advances the handle by one
section (calling it on the end sentinel is disallowed by contract). -/
def config_section_next : List section_t → List section_t
  | [] => []
  | _ :: rest => rest

/-- Modelled from the spec: `config_section_name` reads the name at a
non-end handle (dereferencing the end sentinel is disallowed by contract). -/
def config_section_name : List section_t → String
  | [] => ""
  | s :: _ => s.name

/-- The sequence of section names visited by iterating with
`config_section_name` from a handle until the end sentinel. -/
def iter_names : List section_t → List String
  | [] => []
  | s :: rest => config_section_name (s :: rest) :: iter_names rest

/-- Modelled from the spec: split raw text into lines at newline characters;
the accumulator holds the current line reversed. -/
def split_lines_aux : List Char → List Char → List (List Char)
  | [], acc => [acc.reverse]
  | c :: cs, acc =>
    if c = '\n' then acc.reverse :: split_lines_aux cs []
    else split_lines_aux cs (c :: acc)

/-- Modelled from the spec: strip leading and trailing whitespace from a
line. -/
def trim_chars (cs : List Char) : List Char :=
  ((cs.dropWhile Char.isWhitespace).reverse.dropWhile Char.isWhitespace).reverse

/-- Modelled from the spec: split a line at its first `=`; `none` when the
line has no `=` (a malformed line, skipped by the parser). -/
def split_eq : List Char → Option (List Char × List Char)
  | [] => none
  | c :: cs =>
    if c = '=' then some ([], cs)
    else
      match split_eq cs with
      | none => none
      | some (k, v) => some (c :: k, v)

/-- Modelled from the spec: recognise the tail of a `[section-name]` header
line, returning the name characters before the closing `]`. -/
def strip_bracket : List Char → Option (List Char)
  | [] => none
  | c :: cs =>
    match cs with
    | [] => if c = ']' then some [] else none
    | _ :: _ =>
      match strip_bracket cs with
      | none => none
      | some nm => some (c :: nm)

/-- Modelled from the spec: a `[name]` header line creates the section if
absent (appending, preserving first-seen order) and selects it. -/
def ensure_section (c : config_t) (sec : String) : config_t :=
  match section_find c.sections sec with
  | some _ => c
  | none => ⟨c.sections ++ [⟨sec, []⟩]⟩

/-- Modelled from the spec: act on the result of header recognition; a
malformed or empty-name header is skipped. -/
def parse_header (st : config_t × String) : Option (List Char) → config_t × String
  | none => st
  | some [] => st
  | some (c :: nm) =>
    (ensure_section st.1 (String.mk (c :: nm)), String.mk (c :: nm))

/-- Modelled from the spec: store one `key = value` assignment under the
current section; a line whose key trims to nothing is skipped. -/
def parse_kv (st : config_t × String) (vraw : List Char) : List Char → config_t × String
  | [] => st
  | k0 :: kt =>
    (config_set_string st.1 st.2 (String.mk (k0 :: kt)) (String.mk (trim_chars vraw)), st.2)

/-- Modelled from the spec: act on the result of splitting a line at `=`; a
line with no `=` is skipped. -/
def parse_assign (st : config_t × String) : Option (List Char × List Char) → config_t × String
  | none => st
  | some (kraw, vraw) => parse_kv st vraw (trim_chars kraw)

/-- Modelled from the spec: process one trimmed line — skip blank and
comment lines, recognise `[name]` headers, otherwise treat the line as a
`key = value` assignment. -/
def parse_trimmed (st : config_t × String) : List Char → config_t × String
  | [] => st
  | ch :: rest =>
    if ch = '#' then st
    else if ch = '[' then parse_header st (strip_bracket rest)
    else parse_assign st (split_eq (ch :: rest))

/-- Modelled from the spec: process one raw line, trimming it first. -/
def parse_line (st : config_t × String) (line : List Char) : config_t × String :=
  parse_trimmed st (trim_chars line)

/-- Modelled from the spec: process a sequence of lines, threading the store
and the current section name. -/
def parse_lines : List (List Char) → config_t × String → config_t × String
  | [], st => st
  | l :: ls, st => parse_lines ls (parse_line st l)

/-- Modelled from the spec: the in-memory parsing core of `config_new`
(file reading omitted): line-oriented parsing starting from the empty store
with the default section selected. -/
def config_parse (text : String) : config_t :=
  (parse_lines (split_lines_aux text.data []) (config_new_empty, CONFIG_DEFAULT_SECTION)).1

/-- Modelled from the spec: one serialized entry line `key=value`. -/
def serialize_entries : List entry_t → List Char
  | [] => []
  | e :: rest => e.key.data ++ '=' :: e.value.data ++ '\n' :: serialize_entries rest

/-- Modelled from the spec: serialized non-default sections, each a `[name]`
header line followed by its entry lines. -/
def serialize_sections : List section_t → List Char
  | [] => []
  | s :: rest =>
    '[' :: s.name.data ++ ']' :: '\n' :: (serialize_entries s.entries ++ serialize_sections rest)

/-- Sections other than the default section, in order. -/
def drop_default : List section_t → List section_t
  | [] => []
  | s :: rest =>
    if s.name = CONFIG_DEFAULT_SECTION then drop_default rest else s :: drop_default rest

/-- Modelled from the spec: the in-memory serialization core of
`config_save` (file writing omitted): the default section's entries first
with no header, then each remaining section in iteration order. -/
def config_serialize (c : config_t) : List Char :=
  (match section_find c.sections CONFIG_DEFAULT_SECTION with
   | none => []
   | some s => serialize_entries s.entries)
  ++ serialize_sections (drop_default c.sections)

/-- Modelled from the spec: `config_free` releases a store; the header
documents that the argument may be NULL, in which case the call is a
harmless no-op.  The handle is modelled as `Option config_t` (`none` = NULL)
and the result as `Option Unit`, `some ()` meaning the call completes
normally and `none` a violated non-NULL precondition. -/
def config_free : Option config_t → Option Unit
  | none => some ()
  | some _ => some ()

/-- Modelled from the spec: every query other than `config_free` requires a
non-NULL store; `config_has_section` lifted to a nullable handle, with
`none` marking the violated precondition. -/
def config_has_section_checked : Option config_t → String → Option Bool
  | none, _ => none
  | some c, sec => some (config_has_section c sec)

/-- The line written for an entry by the serializer, without its newline. -/
def entry_line (e : entry_t) : List Char := e.key.data ++ '=' :: e.value.data

/-- The serialized lines of an entry list. -/
def entry_lines : List entry_t → List (List Char)
  | [] => []
  | e :: rest => entry_line e :: entry_lines rest

/-- The header line written for a section name, without its newline. -/
def header_line (nm : String) : List Char := '[' :: (nm.data ++ [']'])

/-- The serialized lines of a non-default section list. -/
def sections_lines : List section_t → List (List Char)
  | [] => []
  | s :: rest => header_line s.name :: (entry_lines s.entries ++ sections_lines rest)

/-- A clean token (section name or key) for the round-trip statement:
nonempty, with no whitespace and none of the structural characters. -/
def good_tok (s : String) : Prop :=
  s.data ≠ [] ∧
  ∀ ch ∈ s.data,
    ch.isWhitespace = false ∧ ch ≠ '=' ∧ ch ≠ '#' ∧ ch ≠ '[' ∧ ch ≠ ']'

/-- A clean value for the round-trip statement: no newline anywhere and no
whitespace at either end (the parser trims values). -/
def good_val (v : String) : Prop :=
  (∀ ch ∈ v.data, ch ≠ '\n') ∧
  (∀ c, v.data.head? = some c → c.isWhitespace = false) ∧
  (∀ c, v.data.reverse.head? = some c → c.isWhitespace = false)

/-- A well-formed entry: clean key, clean value. -/
def wf_entry (e : entry_t) : Prop := good_tok e.key ∧ good_val e.value

/-- A well-formed section: clean nonempty name, at least one entry, clean
entries, and no duplicate keys. -/
def wf_section (s : section_t) : Prop :=
  good_tok s.name ∧ s.entries ≠ [] ∧ (∀ e ∈ s.entries, wf_entry e) ∧
  (s.entries.map entry_t.key).Nodup

/-- A well-formed store: well-formed sections, no duplicate section names,
and the default section, when present, in first position (the serializer
always emits it first). -/
def wf_config (c : config_t) : Prop :=
  (∀ s ∈ c.sections, wf_section s) ∧
  (c.sections.map section_t.name).Nodup ∧
  (∀ s ∈ c.sections, s.name = CONFIG_DEFAULT_SECTION → c.sections.head? = some s)

instance (s : String) : Decidable (good_tok s) := by
  unfold good_tok; infer_instance

instance (v : String) : Decidable (good_val v) := by
  unfold good_val; infer_instance

instance (e : entry_t) : Decidable (wf_entry e) := by
  unfold wf_entry; infer_instance

instance (s : section_t) : Decidable (wf_section s) := by
  unfold wf_section; infer_instance

instance (c : config_t) : Decidable (wf_config c) := by
  unfold wf_config; infer_instance

/-! ### Basic lemmas about finding, setting and removing -/

theorem section_find_eq_none {ss : List section_t} {nm : String} :
    section_find ss nm = none ↔ ∀ s ∈ ss, s.name ≠ nm := by
  induction ss with
  | nil => simp [section_find]
  | cons s rest ih =>
    by_cases h : s.name = nm
    · simp [section_find, h]
    · simp [section_find, h, ih]

theorem section_find_mem {ss : List section_t} {nm : String} {s : section_t}
    (h : section_find ss nm = some s) : s ∈ ss ∧ s.name = nm := by
  induction ss with
  | nil => simp [section_find] at h
  | cons t rest ih =>
    by_cases ht : t.name = nm
    · simp [section_find, ht] at h
      subst h
      exact ⟨List.mem_cons_self t rest, ht⟩
    · simp [section_find, ht] at h
      obtain ⟨hm, hn⟩ := ih h
      exact ⟨List.mem_cons_of_mem _ hm, hn⟩

theorem entry_find_mem {es : List entry_t} {k : String} {e : entry_t}
    (h : entry_find es k = some e) : e ∈ es ∧ e.key = k := by
  induction es with
  | nil => simp [entry_find] at h
  | cons t rest ih =>
    by_cases ht : t.key = k
    · simp [entry_find, ht] at h
      subst h
      exact ⟨List.mem_cons_self t rest, ht⟩
    · simp [entry_find, ht] at h
      obtain ⟨hm, hn⟩ := ih h
      exact ⟨List.mem_cons_of_mem _ hm, hn⟩

theorem entries_set_find (es : List entry_t) (k v : String) :
    entry_find (entries_set es k v) k = some ⟨k, v⟩ := by
  induction es with
  | nil => simp [entries_set, entry_find]
  | cons e rest ih =>
    by_cases h : e.key = k
    · simp [entries_set, h, entry_find]
    · simp [entries_set, h, entry_find, ih]

theorem sections_set_lookup (ss : List section_t) (sec k v : String) :
    config_lookup ⟨sections_set ss sec k v⟩ sec k = some v := by
  induction ss with
  | nil => simp [sections_set, config_lookup, section_find, entries_set, entry_find]
  | cons s rest ih =>
    by_cases h : s.name = sec
    · simp [sections_set, h, config_lookup, section_find, entries_set_find]
    · simpa [sections_set, h, config_lookup, section_find] using ih

theorem entries_set_keys {es : List entry_t} {k : String} (v : String)
    (h : (entry_find es k).isSome = true) :
    (entries_set es k v).map entry_t.key = es.map entry_t.key := by
  induction es with
  | nil => simp [entry_find] at h
  | cons e rest ih =>
    by_cases he : e.key = k
    · simp [entries_set, he]
    · simp [entry_find, he] at h
      simp [entries_set, he, ih h]

theorem sections_set_shape {ss : List section_t} {sec k : String} (v : String)
    {s : section_t} (hf : section_find ss sec = some s)
    (hk : (entry_find s.entries k).isSome = true) :
    (sections_set ss sec k v).map (fun t => (t.name, t.entries.map entry_t.key)) =
      ss.map (fun t => (t.name, t.entries.map entry_t.key)) := by
  induction ss with
  | nil => simp [section_find] at hf
  | cons t rest ih =>
    by_cases ht : t.name = sec
    · simp [section_find, ht] at hf
      subst hf
      simp [sections_set, ht, entries_set_keys v hk]
    · simp [section_find, ht] at hf
      simp [sections_set, ht, ih hf]

theorem has_section_list_iff {ss : List section_t} {nm : String} :
    has_section_list ss nm = true ↔ ∃ s ∈ ss, s.name = nm ∧ s.entries ≠ [] := by
  induction ss with
  | nil => simp [has_section_list]
  | cons s rest ih =>
    by_cases h : s.name = nm ∧ s.entries ≠ []
    · simp only [has_section_list, if_pos h, true_iff]
      exact ⟨s, List.mem_cons_self s rest, h⟩
    · rw [has_section_list, if_neg h]
      rw [ih]
      constructor
      · rintro ⟨t, hm, ht⟩
        exact ⟨t, List.mem_cons_of_mem _ hm, ht⟩
      · rintro ⟨t, hm, ht⟩
        rcases List.mem_cons.mp hm with rfl | hm'
        · exact absurd ht h
        · exact ⟨t, hm', ht⟩

theorem map_key_singleton {es : List entry_t} {k : String}
    (h : es.map entry_t.key = [k]) : ∃ e : entry_t, es = [e] ∧ e.key = k := by
  cases es with
  | nil => simp at h
  | cons e rest =>
    simp only [List.map_cons, List.cons.injEq] at h
    obtain ⟨hk, hr⟩ := h
    have hrest : rest = [] := List.map_eq_nil_iff.mp hr
    exact ⟨e, by rw [hrest], hk⟩

theorem sections_remove_key_absent {ss : List section_t} {nm k : String}
    (hone : ∀ s ∈ ss, s.name = nm → s.entries.map entry_t.key = [k])
    (hnd : (ss.map section_t.name).Nodup) :
    ∀ s' ∈ sections_remove_key ss nm k, s'.name = nm → s'.entries = [] := by
  induction ss with
  | nil => simp [sections_remove_key]
  | cons s rest ih =>
    simp only [List.map_cons, List.nodup_cons] at hnd
    by_cases h : s.name = nm
    · intro s' hmem hname
      rw [sections_remove_key, if_pos h] at hmem
      rcases List.mem_cons.mp hmem with rfl | hmem'
      · obtain ⟨e, hes, hek⟩ := map_key_singleton (hone s (List.mem_cons_self _ _) h)
        simp [hes, entries_remove, hek]
      · exfalso
        have hmm : s'.name ∈ rest.map section_t.name :=
          List.mem_map_of_mem section_t.name hmem'
        rw [hname, ← h] at hmm
        exact hnd.1 hmm
    · intro s' hmem hname
      rw [sections_remove_key, if_neg h] at hmem
      rcases List.mem_cons.mp hmem with rfl | hmem'
      · exact absurd hname h
      · exact ih (fun t ht => hone t (List.mem_cons_of_mem _ ht)) hnd.2 s' hmem' hname

theorem iter_names_eq (ss : List section_t) : iter_names ss = ss.map section_t.name := by
  induction ss with
  | nil => rfl
  | cons s rest ih => simp [iter_names, config_section_name, ih]

theorem clone_entries_eq (es : List entry_t) : clone_entries es = es := by
  induction es with
  | nil => rfl
  | cons e rest ih => rw [clone_entries, ih]

theorem clone_sections_eq (ss : List section_t) : clone_sections ss = ss := by
  induction ss with
  | nil => rfl
  | cons s rest ih => rw [clone_sections, clone_entries_eq, ih]

theorem sections_set_append {ss : List section_t} {sec : String} (k v : String)
    (h : ∀ s ∈ ss, s.name ≠ sec) :
    sections_set ss sec k v = ss ++ [⟨sec, [⟨k, v⟩]⟩] := by
  induction ss with
  | nil => rfl
  | cons s rest ih =>
    rw [sections_set, if_neg (h s (List.mem_cons_self _ _)),
      ih (fun t ht => h t (List.mem_cons_of_mem _ ht))]
    rfl

theorem sections_set_names_cur {ss : List section_t} {cur k v : String}
    (h : ∀ s ∈ ss, s.name = cur) :
    ∀ s ∈ sections_set ss cur k v, s.name = cur := by
  induction ss with
  | nil =>
    intro s hs
    simp only [sections_set, List.mem_singleton] at hs
    subst hs
    rfl
  | cons t rest ih =>
    have ht := h t (List.mem_cons_self _ _)
    intro s hs
    rw [sections_set, if_pos ht] at hs
    rcases List.mem_cons.mp hs with rfl | hs'
    · exact ht
    · exact h s (List.mem_cons_of_mem _ hs')

theorem parse_line_no_header {st : config_t × String} {l : List Char}
    (hl : (trim_chars l).head? ≠ some '[')
    (hinv : ∀ s ∈ st.1.sections, s.name = st.2) :
    (∀ s ∈ (parse_line st l).1.sections, s.name = (parse_line st l).2) ∧
    (parse_line st l).2 = st.2 := by
  rw [parse_line]
  cases ht : trim_chars l with
  | nil => exact ⟨hinv, rfl⟩
  | cons ch rest =>
    rw [ht] at hl
    have hch : ch ≠ '[' := by
      intro h
      exact hl (by rw [h]; rfl)
    simp only [parse_trimmed]
    by_cases hc : ch = '#'
    · rw [if_pos hc]
      exact ⟨hinv, rfl⟩
    · rw [if_neg hc, if_neg hch]
      cases hs : split_eq (ch :: rest) with
      | none =>
        simp only [parse_assign]
        exact ⟨hinv, trivial⟩
      | some kv =>
        obtain ⟨kraw, vraw⟩ := kv
        simp only [parse_assign]
        cases hk : trim_chars kraw with
        | nil =>
          simp only [parse_kv]
          exact ⟨hinv, trivial⟩
        | cons k0 kt =>
          simp only [parse_kv]
          exact ⟨fun s hsm => sections_set_names_cur hinv s hsm, trivial⟩

theorem parse_lines_no_header {ls : List (List Char)} :
    ∀ st : config_t × String,
    (∀ l ∈ ls, (trim_chars l).head? ≠ some '[') →
    (∀ s ∈ st.1.sections, s.name = st.2) →
    ∀ s ∈ (parse_lines ls st).1.sections, s.name = st.2 := by
  induction ls with
  | nil =>
    intro st _ hinv
    exact hinv
  | cons l ls ih =>
    intro st hl hinv
    rw [parse_lines]
    obtain ⟨h1, h2⟩ := parse_line_no_header (hl l (List.mem_cons_self _ _)) hinv
    have h3 := ih (parse_line st l) (fun t ht => hl t (List.mem_cons_of_mem _ ht)) h1
    intro s hs
    rw [← h2]
    exact h3 s hs

/-! ### Claim theorems (except the round trip, which needs more machinery) -/

/-- C2: `config_has_section` is true iff a section with that name exists and
has at least one entry; immediately after `config_remove_key` removes the
last key under a name, `config_has_section` is false for that name, and no
`config_has_key` query can observe the name as present, even though the
empty placeholder section lingers in the container. -/
theorem config_has_section_spec (c : config_t) (name : String) :
    (config_has_section c name = true ↔ ∃ s ∈ c.sections, s.name = name ∧ s.entries ≠ []) ∧
    (∀ key, (c.sections.map section_t.name).Nodup →
      (∀ s ∈ c.sections, s.name = name → s.entries.map entry_t.key = [key]) →
      config_has_section (config_remove_key c name key).2 name = false ∧
      ∀ key2, config_has_key (config_remove_key c name key).2 name key2 = false) := by
  refine ⟨has_section_list_iff, ?_⟩
  intro key hnd hone
  cases hf : section_find c.sections name with
  | none =>
    have hall := section_find_eq_none.mp hf
    constructor
    · simp only [config_remove_key, hf]
      rw [Bool.eq_false_iff]
      intro htrue
      obtain ⟨s, hm, hn, _⟩ := has_section_list_iff.mp htrue
      exact hall s hm hn
    · intro key2
      simp [config_remove_key, config_has_key, config_lookup, hf]
  | some s =>
    obtain ⟨hm, hn⟩ := section_find_mem hf
    obtain ⟨e, hes, hek⟩ := map_key_singleton (hone s hm hn)
    cases he : entry_find s.entries key with
    | none =>
      exfalso
      rw [hes] at he
      simp [entry_find, hek] at he
    | some f =>
      have habs := sections_remove_key_absent hone hnd
      simp only [config_remove_key, hf, he]
      constructor
      · rw [Bool.eq_false_iff]
        intro htrue
        obtain ⟨s', hm', hn', hne⟩ := has_section_list_iff.mp htrue
        exact hne (habs s' hm' hn')
      · intro key2
        cases hf2 : section_find (sections_remove_key c.sections name key) name with
        | none => simp [config_has_key, config_lookup, hf2]
        | some s'' =>
          obtain ⟨hm2, hn2⟩ := section_find_mem hf2
          have : s''.entries = [] := habs s'' hm2 hn2
          simp [config_has_key, config_lookup, hf2, this, entry_find]

/-- Witness for C2 at a concrete one-entry store built with `config_set_string`. -/
theorem config_has_section_spec_witness :
    config_has_section
        ((config_remove_key (config_set_string config_new_empty "S" "k" "v") "S" "k").2) "S"
      = false ∧
    config_has_key
        ((config_remove_key (config_set_string config_new_empty "S" "k" "v") "S" "k").2) "S" "k"
      = false :=
  ⟨((config_has_section_spec (config_set_string config_new_empty "S" "k" "v") "S").2 "k"
      (by decide) (by decide)).1,
   ((config_has_section_spec (config_set_string config_new_empty "S" "k" "v") "S").2 "k"
      (by decide) (by decide)).2 "k"⟩

/-- C3: parsing merges duplicate section headers; the spec's concrete
scenario, with the merged key order and the two `config_has_section`
queries. -/
theorem config_parse_merges_duplicate_sections :
    config_parse "x=1\n[A]\ny=2\n[A]\nz=3\n" =
      ⟨[⟨"Global", [⟨"x", "1"⟩]⟩, ⟨"A", [⟨"y", "2"⟩, ⟨"z", "3"⟩]⟩]⟩ ∧
    config_has_section (config_parse "x=1\n[A]\ny=2\n[A]\nz=3\n") "A" = true ∧
    config_has_section (config_parse "x=1\n[A]\ny=2\n[A]\nz=3\n") "B" = false := by
  exact ⟨by decide, by decide, by decide⟩

/-- C4: set followed by get round-trips exactly, for every triple and every
default; likewise for the boolean setter/getter pair. -/
theorem config_set_get_round_trip (c : config_t) (sec key value d : String) :
    config_get_string (config_set_string c sec key value) sec key d = value ∧
    config_get_bool (config_set_bool c sec key true) sec key false = true := by
  constructor
  · simp [config_get_string, config_set_string, sections_set_lookup]
  · simp [config_get_bool, config_set_bool, config_set_string, sections_set_lookup]

/-- C5: duplicate assignments to one key follow last-assignment-wins, and an
overwrite leaves every section's name and key order unchanged. -/
theorem config_duplicate_key_last_wins (c : config_t) (sec key v1 v2 d : String) :
    config_get_string (config_set_string (config_set_string c sec key v1) sec key v2)
        sec key d = v2 ∧
    (config_has_key c sec key = true →
      (config_set_string c sec key v2).sections.map
          (fun s => (s.name, s.entries.map entry_t.key)) =
        c.sections.map (fun s => (s.name, s.entries.map entry_t.key))) := by
  constructor
  · simp [config_get_string, config_set_string, sections_set_lookup]
  · intro hk
    cases hf : section_find c.sections sec with
    | none =>
      exfalso
      simp [config_has_key, config_lookup, hf] at hk
    | some s =>
      cases he : entry_find s.entries key with
      | none =>
        exfalso
        simp [config_has_key, config_lookup, hf, he] at hk
      | some e =>
        exact sections_set_shape v2 hf (by rw [he]; rfl)

/-- Witness for C5 at a store that already contains the key. -/
theorem config_duplicate_key_last_wins_witness :
    config_has_key (config_set_string config_new_empty "S" "a" "1") "S" "a" = true ∧
    (config_set_string (config_set_string config_new_empty "S" "a" "1") "S" "a" "9").sections.map
        (fun s => (s.name, s.entries.map entry_t.key)) =
      (config_set_string config_new_empty "S" "a" "1").sections.map
        (fun s => (s.name, s.entries.map entry_t.key)) :=
  ⟨by decide,
   (config_duplicate_key_last_wins (config_set_string config_new_empty "S" "a" "1")
      "S" "a" "0" "9" "d").2 (by decide)⟩

/-- C6: typed getters return the caller's default on absence or conversion
failure, with no partial-parse acceptance, and the converted value on a
clean conversion. -/
theorem config_typed_getter_defaults (c : config_t) (sec key : String) :
    (∀ d : Int, config_lookup c sec key = some "12abc" → config_get_int c sec key d = d) ∧
    (∀ (d : Bool) (v : String), config_lookup c sec key = some v →
      v ≠ "true" → v ≠ "false" → config_get_bool c sec key d = d) ∧
    (∀ (d n : Int) (v : String), config_lookup c sec key = some v →
      parse_int_full v = some n → config_get_int c sec key d = n) ∧
    (∀ d : Int, config_lookup c sec key = none → config_get_int c sec key d = d) := by
  refine ⟨?_, ?_, ?_, ?_⟩
  · intro d h
    have hp : parse_int_full "12abc" = none := by decide
    simp [config_get_int, h, hp]
  · intro d v h h1 h2
    simp [config_get_bool, h, h1, h2]
  · intro d n v h hp
    simp [config_get_int, h, hp]
  · intro d h
    simp [config_get_int, h]

/-- Witness for C6: `"12abc"` with default 7 gives 7, a non-boolean string
gives the boolean default, and `"42"` converts cleanly to 42. -/
theorem config_typed_getter_defaults_witness :
    config_get_int
      (config_set_string (config_set_string (config_set_string config_new_empty
        "S" "a" "12abc") "S" "b" "maybe") "S" "n" "42") "S" "a" 7 = 7 ∧
    config_get_bool
      (config_set_string (config_set_string (config_set_string config_new_empty
        "S" "a" "12abc") "S" "b" "maybe") "S" "n" "42") "S" "b" true = true ∧
    config_get_int
      (config_set_string (config_set_string (config_set_string config_new_empty
        "S" "a" "12abc") "S" "b" "maybe") "S" "n" "42") "S" "n" 0 = 42 :=
  ⟨(config_typed_getter_defaults _ "S" "a").1 7 (by decide),
   (config_typed_getter_defaults _ "S" "b").2.1 true "maybe" (by decide) (by decide) (by decide),
   (config_typed_getter_defaults _ "S" "n").2.2.1 0 42 "42" (by decide) (by decide)⟩

/-- C7: cloning produces a deep copy equal to the source, preserving order;
in the pure state-passing embedding, mutating either store yields a new
value and leaves the other store's answers unchanged. -/
theorem config_new_clone_independent (c : config_t) (sec key v d : String) :
    config_new_clone c = c ∧
    config_get_string (config_set_string c sec key v) sec key d = v ∧
    config_get_string (config_new_clone c) sec key d = config_get_string c sec key d ∧
    config_get_string (config_set_string (config_new_clone c) sec key v) sec key d = v := by
  have hc : config_new_clone c = c := by
    rw [config_new_clone, clone_sections_eq]
  refine ⟨hc, ?_, by rw [hc], ?_⟩
  · simp [config_get_string, config_set_string, sections_set_lookup]
  · simp [config_get_string, config_set_string, sections_set_lookup]

/-- C8: the default section is the fixed constant `"Global"`; every
key/value pair parsed before any `[section]` header lands under it, and it
obeys the same merge rules as any other section. -/
theorem config_default_section_spec :
    CONFIG_DEFAULT_SECTION = "Global" ∧
    (∀ text : String,
      (∀ l ∈ split_lines_aux text.data [], (trim_chars l).head? ≠ some '[') →
      ∀ s ∈ (config_parse text).sections, s.name = CONFIG_DEFAULT_SECTION) ∧
    config_parse "x=1\n[Global]\ny=2\n" = config_parse "x=1\ny=2\n" := by
  refine ⟨rfl, ?_, by decide⟩
  intro text hl
  exact parse_lines_no_header (config_new_empty, CONFIG_DEFAULT_SECTION) hl
    (by intro s hs; simp [config_new_empty] at hs)

/-- Witness for C8 on the header-free text `"x=1\ny=2\n"`. -/
theorem config_default_section_spec_witness :
    (∀ l ∈ split_lines_aux ("x=1\ny=2\n").data [], (trim_chars l).head? ≠ some '[') ∧
    ∀ s ∈ (config_parse "x=1\ny=2\n").sections, s.name = CONFIG_DEFAULT_SECTION :=
  ⟨by decide, config_default_section_spec.2.1 "x=1\ny=2\n" (by decide)⟩

/-- C9: `config_section_begin` equals `config_section_end` exactly on a
store with no sections, `config_section_next` advances one section at a
time, the visited names are exactly the stored section order, and creating
a fresh section appends it at the end of that order. -/
theorem config_section_iteration_spec (c : config_t) (sec key v : String) :
    (config_section_begin c = config_section_end c ↔ c.sections = []) ∧
    (∀ (s : section_t) (rest : List section_t), config_section_next (s :: rest) = rest) ∧
    iter_names (config_section_begin c) = c.sections.map section_t.name ∧
    (section_find c.sections sec = none →
      (config_set_string c sec key v).sections.map section_t.name =
        c.sections.map section_t.name ++ [sec]) := by
  refine ⟨Iff.rfl, fun s rest => rfl, iter_names_eq _, ?_⟩
  intro hf
  have hall := section_find_eq_none.mp hf
  show (sections_set c.sections sec key v).map section_t.name = _
  rw [sections_set_append key v hall]
  simp

/-- Witness for C9 at a one-section store and a fresh section name. -/
theorem config_section_iteration_spec_witness :
    section_find ([⟨"A", [⟨"k", "v"⟩]⟩] : List section_t) "B" = none ∧
    (config_set_string ⟨[⟨"A", [⟨"k", "v"⟩]⟩]⟩ "B" "x" "y").sections.map section_t.name =
      ([⟨"A", [⟨"k", "v"⟩]⟩] : List section_t).map section_t.name ++ ["B"] :=
  ⟨by decide,
   (config_section_iteration_spec ⟨[⟨"A", [⟨"k", "v"⟩]⟩]⟩ "B" "x" "y").2.2.2 (by decide)⟩

/-- C10: `config_free` accepts NULL as a harmless no-op, while other
operations require a non-NULL store. -/
theorem config_free_null_ok :
    config_free none = some () ∧
    (∀ c : config_t, config_free (some c) = some ()) ∧
    (∀ sec : String, config_has_section_checked none sec = none) :=
  ⟨rfl, fun _ => rfl, fun _ => rfl⟩

/-! ### Round-trip machinery: trimming, line splitting, line recognition -/

theorem char_not_nl {ch : Char} (h : ch.isWhitespace = false) : ch ≠ '\n' := by
  intro hn
  subst hn
  exact absurd h (by decide)

theorem head?_mem {l : List Char} {c : Char} (h : l.head? = some c) : c ∈ l := by
  cases l with
  | nil => simp at h
  | cons a t =>
    simp only [List.head?_cons, Option.some.injEq] at h
    rw [← h]
    exact List.mem_cons_self _ _

theorem dropWhile_head_stop {l : List Char}
    (h : ∀ c, l.head? = some c → c.isWhitespace = false) :
    l.dropWhile Char.isWhitespace = l := by
  cases l with
  | nil => rfl
  | cons a t =>
    have ha := h a rfl
    simp [List.dropWhile, ha]

theorem trim_eq_self {l : List Char}
    (h1 : ∀ c, l.head? = some c → c.isWhitespace = false)
    (h2 : ∀ c, l.reverse.head? = some c → c.isWhitespace = false) :
    trim_chars l = l := by
  rw [trim_chars, dropWhile_head_stop h1, dropWhile_head_stop h2, List.reverse_reverse]

theorem trim_eq_self_of_all {l : List Char}
    (h : ∀ ch ∈ l, ch.isWhitespace = false) : trim_chars l = l := by
  apply trim_eq_self
  · intro c hc
    exact h c (head?_mem hc)
  · intro c hc
    exact h c (List.mem_reverse.mp (head?_mem hc))

theorem split_eq_spec (xs ys : List Char) (h : ∀ c ∈ xs, c ≠ '=') :
    split_eq (xs ++ '=' :: ys) = some (xs, ys) := by
  induction xs with
  | nil => rw [List.nil_append, split_eq, if_pos rfl]
  | cons x xs ih =>
    rw [List.cons_append, split_eq, if_neg (h x (List.mem_cons_self _ _)),
      ih (fun c hc => h c (List.mem_cons_of_mem _ hc))]

theorem strip_bracket_spec (xs : List Char) : strip_bracket (xs ++ [']']) = some xs := by
  induction xs with
  | nil => simp [strip_bracket]
  | cons x xs ih =>
    cases xs with
    | nil => simp [strip_bracket]
    | cons y ys =>
      have ih' : strip_bracket (y :: (ys ++ [']'])) = some (y :: ys) := by
        rw [← List.cons_append]
        exact ih
      have hstep : strip_bracket (x :: (y :: (ys ++ [']']))) =
          match strip_bracket (y :: (ys ++ [']'])) with
          | none => none
          | some nm => some (x :: nm) := rfl
      show strip_bracket (x :: (y :: (ys ++ [']']))) = some (x :: y :: ys)
      rw [hstep, ih']

theorem split_lines_chunk (xs : List Char) :
    ∀ (rest acc : List Char), (∀ ch ∈ xs, ch ≠ '\n') →
    split_lines_aux (xs ++ '\n' :: rest) acc =
      (acc.reverse ++ xs) :: split_lines_aux rest [] := by
  induction xs with
  | nil =>
    intro rest acc _
    rw [List.nil_append, split_lines_aux, if_pos rfl, List.append_nil]
  | cons x xs ih =>
    intro rest acc h
    have hx : x ≠ '\n' := h x (List.mem_cons_self _ _)
    rw [List.cons_append, split_lines_aux, if_neg hx,
      ih rest (x :: acc) (fun ch hch => h ch (List.mem_cons_of_mem _ hch)),
      List.reverse_cons, List.append_assoc]
    rfl

theorem entry_line_no_nl {e : entry_t} (he : wf_entry e) : ∀ ch ∈ entry_line e, ch ≠ '\n' := by
  obtain ⟨⟨_, hkall⟩, hvnl, _, _⟩ := he
  intro ch hch
  rw [entry_line] at hch
  rcases List.mem_append.mp hch with h1 | h2
  · exact char_not_nl (hkall ch h1).1
  · rcases List.mem_cons.mp h2 with rfl | h3
    · decide
    · exact hvnl ch h3

theorem header_line_no_nl {nm : String} (hnm : good_tok nm) :
    ∀ ch ∈ header_line nm, ch ≠ '\n' := by
  obtain ⟨_, hnall⟩ := hnm
  intro ch hch
  rw [header_line] at hch
  rcases List.mem_cons.mp hch with rfl | h2
  · decide
  · rcases List.mem_append.mp h2 with h3 | h4
    · exact char_not_nl (hnall ch h3).1
    · rcases List.mem_singleton.mp h4 with rfl
      decide

theorem lines_serialize_entries (es : List entry_t) :
    ∀ rest : List Char, (∀ e ∈ es, wf_entry e) →
    split_lines_aux (serialize_entries es ++ rest) [] =
      entry_lines es ++ split_lines_aux rest [] := by
  induction es with
  | nil =>
    intro rest _
    rw [serialize_entries, List.nil_append, entry_lines, List.nil_append]
  | cons e tl ih =>
    intro rest h
    have hsh : serialize_entries (e :: tl) ++ rest =
        entry_line e ++ '\n' :: (serialize_entries tl ++ rest) := by
      rw [serialize_entries, entry_line]
      simp [List.append_assoc]
    rw [hsh,
      split_lines_chunk (entry_line e) (serialize_entries tl ++ rest) []
        (entry_line_no_nl (h e (List.mem_cons_self _ _))),
      ih rest (fun t ht => h t (List.mem_cons_of_mem _ ht)), entry_lines]
    rfl

theorem lines_serialize_sections (ss : List section_t) :
    ∀ rest : List Char, (∀ s ∈ ss, wf_section s) →
    split_lines_aux (serialize_sections ss ++ rest) [] =
      sections_lines ss ++ split_lines_aux rest [] := by
  induction ss with
  | nil =>
    intro rest _
    rw [serialize_sections, List.nil_append, sections_lines, List.nil_append]
  | cons s tl ih =>
    intro rest h
    obtain ⟨htok, hne, hent, hnd⟩ := h s (List.mem_cons_self _ _)
    have hsh : serialize_sections (s :: tl) ++ rest =
        header_line s.name ++
          '\n' :: (serialize_entries s.entries ++ (serialize_sections tl ++ rest)) := by
      rw [serialize_sections, header_line]
      simp [List.append_assoc]
    rw [hsh,
      split_lines_chunk (header_line s.name)
        (serialize_entries s.entries ++ (serialize_sections tl ++ rest)) []
        (header_line_no_nl htok),
      lines_serialize_entries s.entries (serialize_sections tl ++ rest) hent,
      ih rest (fun t ht => h t (List.mem_cons_of_mem _ ht)), sections_lines]
    simp [List.append_assoc]

theorem lines_serialize_sections_nil (ss : List section_t) (hwf : ∀ s ∈ ss, wf_section s) :
    split_lines_aux (serialize_sections ss) [] = sections_lines ss ++ [[]] := by
  have h := lines_serialize_sections ss [] hwf
  rw [List.append_nil] at h
  rw [h]
  rfl

theorem parse_line_entry {e : entry_t} (he : wf_entry e) (st : config_t × String) :
    parse_line st (entry_line e) = (config_set_string st.1 st.2 e.key e.value, st.2) := by
  obtain ⟨⟨hk0, hkall⟩, hvnl, hvh, hvr⟩ := he
  have hrev : (entry_line e).reverse = e.value.data.reverse ++ '=' :: e.key.data.reverse := by
    rw [entry_line, List.reverse_append, List.reverse_cons, List.append_assoc]
    rfl
  have htrim : trim_chars (entry_line e) = entry_line e := by
    apply trim_eq_self
    · intro c hc
      cases hkd : e.key.data with
      | nil => exact absurd hkd hk0
      | cons a t =>
        rw [entry_line, hkd, List.cons_append] at hc
        simp only [List.head?_cons, Option.some.injEq] at hc
        subst hc
        exact (hkall a (by rw [hkd]; exact List.mem_cons_self _ _)).1
    · intro c hc
      rw [hrev] at hc
      cases hvd : e.value.data.reverse with
      | nil =>
        rw [hvd, List.nil_append] at hc
        simp only [List.head?_cons, Option.some.injEq] at hc
        subst hc
        decide
      | cons a t =>
        rw [hvd, List.cons_append] at hc
        simp only [List.head?_cons, Option.some.injEq] at hc
        subst hc
        exact hvr a (by rw [hvd]; rfl)
  rw [parse_line, htrim]
  cases hkd : e.key.data with
  | nil => exact absurd hkd hk0
  | cons k0 kt =>
    have hmem : ∀ ch ∈ k0 :: kt,
        ch.isWhitespace = false ∧ ch ≠ '=' ∧ ch ≠ '#' ∧ ch ≠ '[' ∧ ch ≠ ']' := by
      rw [← hkd]
      exact hkall
    have hk0p := hmem k0 (List.mem_cons_self _ _)
    have hline : entry_line e = k0 :: (kt ++ '=' :: e.value.data) := by
      rw [entry_line, hkd]
      rfl
    rw [hline]
    simp only [parse_trimmed, if_neg hk0p.2.2.1, if_neg hk0p.2.2.2.1]
    have hsplit : split_eq (k0 :: (kt ++ '=' :: e.value.data)) =
        some (k0 :: kt, e.value.data) :=
      split_eq_spec (k0 :: kt) e.value.data (fun c hc => (hmem c hc).2.1)
    rw [hsplit]
    simp only [parse_assign]
    have htrimk : trim_chars (k0 :: kt) = k0 :: kt :=
      trim_eq_self_of_all (fun ch hch => (hmem ch hch).1)
    rw [htrimk]
    simp only [parse_kv]
    have htrimv : trim_chars e.value.data = e.value.data := trim_eq_self hvh hvr
    rw [htrimv, ← hkd]

theorem parse_line_header {nm : String} (hnm : good_tok nm) (st : config_t × String) :
    parse_line st (header_line nm) = (ensure_section st.1 nm, nm) := by
  obtain ⟨hn0, hnall⟩ := hnm
  have hrev : (header_line nm).reverse = ']' :: (nm.data.reverse ++ ['[']) := by
    rw [header_line, List.reverse_cons, List.reverse_append]
    rfl
  have htrim : trim_chars (header_line nm) = header_line nm := by
    apply trim_eq_self
    · intro c hc
      rw [header_line] at hc
      simp only [List.head?_cons, Option.some.injEq] at hc
      subst hc
      decide
    · intro c hc
      rw [hrev] at hc
      simp only [List.head?_cons, Option.some.injEq] at hc
      subst hc
      decide
  rw [parse_line, htrim, header_line]
  simp only [parse_trimmed, if_neg (by decide : ¬('[' : Char) = '#'), if_pos rfl]
  rw [strip_bracket_spec]
  cases hnd : nm.data with
  | nil => exact absurd hnd hn0
  | cons a t =>
    simp only [parse_header]
    rw [← hnd, if_true]

theorem parse_lines_append (l1 l2 : List (List Char)) :
    ∀ st : config_t × String, parse_lines (l1 ++ l2) st = parse_lines l2 (parse_lines l1 st) := by
  induction l1 with
  | nil => intro st; rfl
  | cons l ls ih =>
    intro st
    simp only [List.cons_append, parse_lines]
    exact ih (parse_line st l)

theorem parse_lines_empty_line (st : config_t × String) : parse_lines [[]] st = st := rfl

theorem entries_set_append {es : List entry_t} {k : String} (v : String)
    (h : ∀ e ∈ es, e.key ≠ k) :
    entries_set es k v = es ++ [⟨k, v⟩] := by
  induction es with
  | nil => rfl
  | cons e rest ih =>
    rw [entries_set, if_neg (h e (List.mem_cons_self _ _)),
      ih (fun t ht => h t (List.mem_cons_of_mem _ ht))]
    rfl

theorem sections_set_last {pre : List section_t} {cur : String} (done : List entry_t)
    (k v : String) (h : ∀ s ∈ pre, s.name ≠ cur) :
    sections_set (pre ++ [⟨cur, done⟩]) cur k v = pre ++ [⟨cur, entries_set done k v⟩] := by
  induction pre with
  | nil => simp [sections_set]
  | cons s rest ih =>
    rw [List.cons_append, sections_set, if_neg (h s (List.mem_cons_self _ _)),
      ih (fun t ht => h t (List.mem_cons_of_mem _ ht))]
    rfl

theorem parse_entries_go (es : List entry_t) :
    ∀ (pre : List section_t) (done : List entry_t) (cur : String),
    (∀ e ∈ es, wf_entry e) →
    (∀ s ∈ pre, s.name ≠ cur) →
    (∀ e ∈ es, ∀ d ∈ done, d.key ≠ e.key) →
    (es.map entry_t.key).Nodup →
    parse_lines (entry_lines es) (⟨pre ++ [⟨cur, done⟩]⟩, cur) =
      (⟨pre ++ [⟨cur, done ++ es⟩]⟩, cur) := by
  induction es with
  | nil =>
    intro pre done cur _ _ _ _
    simp [entry_lines, parse_lines]
  | cons e rest ih =>
    intro pre done cur hwf hpre hdisj hnd
    simp only [List.map_cons, List.nodup_cons] at hnd
    rw [entry_lines, parse_lines, parse_line_entry (hwf e (List.mem_cons_self _ _))]
    have hset : config_set_string ⟨pre ++ [⟨cur, done⟩]⟩ cur e.key e.value =
        ⟨pre ++ [⟨cur, done ++ [e]⟩]⟩ := by
      rw [config_set_string]
      show (⟨sections_set (pre ++ [⟨cur, done⟩]) cur e.key e.value⟩ : config_t) = _
      rw [sections_set_last done e.key e.value hpre,
        entries_set_append e.value (fun d hd => hdisj e (List.mem_cons_self _ _) d hd)]
    rw [hset]
    have hdisj' : ∀ e' ∈ rest, ∀ d ∈ done ++ [e], d.key ≠ e'.key := by
      intro e' he' d hd
      rcases List.mem_append.mp hd with hd' | hd'
      · exact hdisj e' (List.mem_cons_of_mem _ he') d hd'
      · rcases List.mem_singleton.mp hd' with rfl
        intro heq
        exact hnd.1 (heq ▸ List.mem_map_of_mem entry_t.key he')
    rw [ih pre (done ++ [e]) cur (fun t ht => hwf t (List.mem_cons_of_mem _ ht)) hpre
      hdisj' hnd.2]
    simp [List.append_assoc]

theorem parse_entries_fresh {es : List entry_t} {secs : List section_t} {cur : String}
    (hwf : ∀ e ∈ es, wf_entry e)
    (hsecs : ∀ s ∈ secs, s.name ≠ cur)
    (hnd : (es.map entry_t.key).Nodup)
    (hne : es ≠ []) :
    parse_lines (entry_lines es) (⟨secs⟩, cur) = (⟨secs ++ [⟨cur, es⟩]⟩, cur) := by
  cases es with
  | nil => exact absurd rfl hne
  | cons e rest =>
    simp only [List.map_cons, List.nodup_cons] at hnd
    rw [entry_lines, parse_lines, parse_line_entry (hwf e (List.mem_cons_self _ _))]
    have hset : config_set_string ⟨secs⟩ cur e.key e.value = ⟨secs ++ [⟨cur, [e]⟩]⟩ := by
      rw [config_set_string]
      show (⟨sections_set secs cur e.key e.value⟩ : config_t) = _
      rw [sections_set_append e.key e.value hsecs]
    rw [hset]
    have hdisj : ∀ e' ∈ rest, ∀ d ∈ ([e] : List entry_t), d.key ≠ e'.key := by
      intro e' he' d hd
      rcases List.mem_singleton.mp hd with rfl
      intro heq
      exact hnd.1 (heq ▸ List.mem_map_of_mem entry_t.key he')
    rw [parse_entries_go rest secs [e] cur (fun t ht => hwf t (List.mem_cons_of_mem _ ht))
      hsecs hdisj hnd.2]
    rfl

theorem parse_one_section {s : section_t} {secs : List section_t} (cur : String)
    (hwf : wf_section s) (hfresh : ∀ t ∈ secs, t.name ≠ s.name) :
    parse_lines (header_line s.name :: entry_lines s.entries) (⟨secs⟩, cur) =
      (⟨secs ++ [s]⟩, s.name) := by
  obtain ⟨htok, hne, hent, hnd⟩ := hwf
  rw [parse_lines, parse_line_header htok]
  have hens : ensure_section ⟨secs⟩ s.name = ⟨secs ++ [⟨s.name, []⟩]⟩ := by
    rw [ensure_section]
    simp only [section_find_eq_none.mpr hfresh]
  rw [hens,
    parse_entries_go s.entries secs [] s.name hent hfresh
      (fun e _ d hd => absurd hd (List.not_mem_nil d)) hnd]
  rfl

theorem parse_sections_go (ss : List section_t) :
    ∀ (secs : List section_t) (cur : String),
    (∀ s ∈ ss, wf_section s) →
    (ss.map section_t.name).Nodup →
    (∀ s ∈ ss, ∀ t ∈ secs, t.name ≠ s.name) →
    (parse_lines (sections_lines ss) (⟨secs⟩, cur)).1 = ⟨secs ++ ss⟩ := by
  induction ss with
  | nil =>
    intro secs cur _ _ _
    simp [sections_lines, parse_lines]
  | cons s rest ih =>
    intro secs cur hwf hnd hdisj
    simp only [List.map_cons, List.nodup_cons] at hnd
    rw [sections_lines,
      show header_line s.name :: (entry_lines s.entries ++ sections_lines rest) =
        (header_line s.name :: entry_lines s.entries) ++ sections_lines rest from rfl,
      parse_lines_append,
      parse_one_section cur (hwf s (List.mem_cons_self _ _))
        (fun t ht => hdisj s (List.mem_cons_self _ _) t ht)]
    have hdisj' : ∀ s' ∈ rest, ∀ t ∈ secs ++ [s], t.name ≠ s'.name := by
      intro s' hs' t ht
      rcases List.mem_append.mp ht with ht' | ht'
      · exact hdisj s' (List.mem_cons_of_mem _ hs') t ht'
      · rcases List.mem_singleton.mp ht' with rfl
        intro heq
        exact hnd.1 (heq ▸ List.mem_map_of_mem section_t.name hs')
    rw [ih (secs ++ [s]) s.name (fun t ht => hwf t (List.mem_cons_of_mem _ ht)) hnd.2 hdisj']
    simp [List.append_assoc]

theorem drop_default_id {ss : List section_t}
    (h : ∀ s ∈ ss, s.name ≠ CONFIG_DEFAULT_SECTION) : drop_default ss = ss := by
  induction ss with
  | nil => rfl
  | cons s rest ih =>
    rw [drop_default, if_neg (h s (List.mem_cons_self _ _)),
      ih (fun t ht => h t (List.mem_cons_of_mem _ ht))]

/-- C1 (amended): for every well-formed store — clean section names and keys,
clean values, no duplicate section names or keys, the default section (when
present) in first position — re-parsing the serialized text reproduces the
store exactly: same sections, same keys and values, in the same order. -/
theorem config_round_trip (c : config_t) (h : wf_config c) :
    config_parse (String.mk (config_serialize c)) = c := by
  obtain ⟨hall, hnd, hglob⟩ := h
  show (parse_lines (split_lines_aux (config_serialize c) [])
    ((⟨[]⟩ : config_t), CONFIG_DEFAULT_SECTION)).1 = c
  by_cases hg : ∃ s ∈ c.sections, s.name = CONFIG_DEFAULT_SECTION
  · obtain ⟨g, hgm, hgn⟩ := hg
    have hhead := hglob g hgm hgn
    cases hcs : c.sections with
    | nil =>
      rw [hcs] at hgm
      simp at hgm
    | cons a rest =>
      rw [hcs] at hhead
      simp only [List.head?_cons, Option.some.injEq] at hhead
      rw [hhead] at hcs
      have hnd' : g.name ∉ rest.map section_t.name ∧ (rest.map section_t.name).Nodup := by
        rw [hcs] at hnd
        simpa using hnd
      have hrest_ne : ∀ s ∈ rest, s.name ≠ CONFIG_DEFAULT_SECTION := by
        intro s hs heq
        apply hnd'.1
        rw [hgn, ← heq]
        exact List.mem_map_of_mem section_t.name hs
      have hwfg := hall g hgm
      have hwftl : ∀ s ∈ rest, wf_section s := by
        intro s hs
        exact hall s (by rw [hcs]; exact List.mem_cons_of_mem _ hs)
      have hfindg : section_find c.sections CONFIG_DEFAULT_SECTION = some g := by
        rw [hcs, section_find, if_pos hgn]
      have hser : config_serialize c =
          serialize_entries g.entries ++ serialize_sections rest := by
        rw [config_serialize]
        simp only [hfindg]
        rw [hcs, drop_default, if_pos hgn, drop_default_id hrest_ne]
      rw [hser,
        lines_serialize_entries g.entries (serialize_sections rest) hwfg.2.2.1,
        lines_serialize_sections_nil rest hwftl,
        parse_lines_append, parse_lines_append,
        parse_entries_fresh hwfg.2.2.1 (fun s hs => absurd hs (List.not_mem_nil s))
          hwfg.2.2.2 hwfg.2.1]
      have hgsec : (⟨CONFIG_DEFAULT_SECTION, g.entries⟩ : section_t) = g := by
        rw [← hgn]
      rw [hgsec, parse_lines_empty_line]
      have hdisj : ∀ s ∈ rest, ∀ t ∈ ([] : List section_t) ++ [g], t.name ≠ s.name := by
        intro s hs t ht
        rcases List.mem_singleton.mp ht with rfl
        rw [hgn]
        intro heq
        exact hrest_ne s hs heq.symm
      refine (parse_sections_go rest ([] ++ [g]) CONFIG_DEFAULT_SECTION hwftl hnd'.2 hdisj).trans ?_
      show (⟨g :: rest⟩ : config_t) = c
      rw [← hcs]
  · have hnoG : ∀ s ∈ c.sections, s.name ≠ CONFIG_DEFAULT_SECTION := by
      intro s hs heq
      exact hg ⟨s, hs, heq⟩
    have hfind : section_find c.sections CONFIG_DEFAULT_SECTION = none :=
      section_find_eq_none.mpr hnoG
    have hser : config_serialize c = serialize_sections c.sections := by
      rw [config_serialize]
      simp only [hfind]
      rw [drop_default_id hnoG, List.nil_append]
    rw [hser, lines_serialize_sections_nil c.sections hall,
      parse_lines_append, parse_lines_empty_line]
    exact (parse_sections_go c.sections [] CONFIG_DEFAULT_SECTION hall hnd
      (fun s _ t ht => absurd ht (List.not_mem_nil t))).trans rfl

/-- Counterexample for C1 as stated: a store built by one `config_set_string`
call whose value carries leading whitespace does not survive the round trip —
the parser trims the value, so `" v"` comes back as `"v"`. -/
theorem config_round_trip_counterexample :
    config_parse (String.mk (config_serialize
      (config_set_string config_new_empty "Global" "k" " v"))) ≠
    config_set_string config_new_empty "Global" "k" " v" := by decide

/-- Witness for C1 (amended) at a concrete store built by `config_set_string`
calls. -/
theorem config_round_trip_witness :
    wf_config (config_set_string
      (config_set_string config_new_empty "Global" "timeout" "10") "A" "mode" "fast") ∧
    config_parse (String.mk (config_serialize (config_set_string
      (config_set_string config_new_empty "Global" "timeout" "10") "A" "mode" "fast"))) =
    config_set_string
      (config_set_string config_new_empty "Global" "timeout" "10") "A" "mode" "fast" :=
  ⟨by decide, config_round_trip _ (by decide)⟩
